import Mathlib

/-!
Verification development for the qperf QUIC throughput benchmark
(`qperf.go`, all coexisting historical variants of the program).

Go strings are modelled as `List Char`; Go `float64` arithmetic is modelled
exactly over `ℚ` (every expression the claims mention is exactly
representable at the claimed inputs), with an explicit extended-value type
for the one place where a division by zero can occur.  Stream I/O is
modelled by traces of read/write outcomes, one entry per call on the
stream, as delivered by the external QUIC transport.
-/

namespace QPerf

/-- Size of the payload buffer `var data [1 << 16]byte`. -/
def payloadLen : ℕ := 1 <<< 16

/-- Source constant `const totalData = 10 << 30` (variants 2 and 3). -/
def totalData : ℕ := 10 <<< 30

/-- Source constant `const readChunkSize = 8 << 10`. -/
def readChunkSize : ℕ := 8 <<< 10

/-! ### Model of the Go standard-library float scanning used by
`limiterFromString`.

`strconv.ParseFloat` is modelled on its plain decimal fragment
(optional sign, digits, optional fraction, optional decimal exponent);
the special forms (`Inf`, `NaN`, hex mantissa, digit underscores) are not
modelled — on every string the claims quantify over, both the model and the
real function agree.  `fmt.Sscanf(l, "%fX", &limit)` is modelled by
`floatToken` (the scanner's maximal float-shaped token), decoding the token,
then matching the literal format character against the next input
character; input left over after the format is ignored, as `Sscanf` does. -/

/-- Longest prefix of decimal digits, with the remaining input. -/
def takeDigits : List Char → List Char × List Char
  | [] => ([], [])
  | c :: r =>
    if c.isDigit then
      let p := takeDigits r
      (c :: p.1, p.2)
    else ([], c :: r)

/-- Optional leading sign character, with the remaining input. -/
def scanSign : List Char → List Char × List Char
  | [] => ([], [])
  | c :: r => if c = '+' ∨ c = '-' then ([c], r) else ([], c :: r)

/-- Optional fraction block `.digits`, with the remaining input. -/
def scanFrac : List Char → List Char × List Char
  | [] => ([], [])
  | c :: r =>
    if c = '.' then
      let p := takeDigits r
      (c :: p.1, p.2)
    else ([], c :: r)

/-- Optional exponent block `e[sign]digits`, with the remaining input. -/
def scanExp : List Char → List Char × List Char
  | [] => ([], [])
  | c :: r =>
    if c = 'e' ∨ c = 'E' then
      let sp := scanSign r
      let dp := takeDigits sp.2
      (c :: (sp.1 ++ dp.1), dp.2)
    else ([], c :: r)

/-- The fmt scanner's maximal float-shaped token (sign, digits, fraction,
exponent), with the remaining input; models `ss.floatToken`. -/
def floatToken (s : List Char) : List Char × List Char :=
  let sp := scanSign s
  let ip := takeDigits sp.2
  let fp := scanFrac ip.2
  let ep := scanExp fp.2
  (sp.1 ++ ip.1 ++ fp.1 ++ ep.1, ep.2)

/-- Numeric value of a digit string, most significant digit first. -/
def digitsVal (ds : List Char) : ℕ :=
  ds.foldl (fun a c => 10 * a + (c.toNat - 48)) 0

/-- Decode the exponent suffix of a float string and finish the value;
an empty remainder means no exponent. -/
def decodeExp (sgn m : ℚ) : List Char → Option ℚ
  | [] => some (sgn * m)
  | c :: r =>
    if c = 'e' ∨ c = 'E' then
      let sp := scanSign r
      let dp := takeDigits sp.2
      if dp.1 = [] ∨ dp.2 ≠ [] then none
      else
        let e : ℤ :=
          if sp.1 = ['-'] then -(digitsVal dp.1 : ℤ) else (digitsVal dp.1 : ℤ)
        some (sgn * m * (10 : ℚ) ^ e)
    else none

/-- Strict decode of a whole string as a decimal float: models
`strconv.ParseFloat(l, 64)` (decimal fragment), with the value taken
exactly in `ℚ`.  Fails unless the entire string is consumed and the
mantissa has at least one digit. -/
def decodeTok (s : List Char) : Option ℚ :=
  let sp := scanSign s
  let sgn : ℚ := if sp.1 = ['-'] then -1 else 1
  let ip := takeDigits sp.2
  match ip.2 with
  | [] => if ip.1 = [] then none else decodeExp sgn (digitsVal ip.1 : ℚ) []
  | c :: r1 =>
    if c = '.' then
      let fp := takeDigits r1
      if ip.1 = [] ∧ fp.1 = [] then none
      else
        decodeExp sgn
          ((digitsVal ip.1 : ℚ) + (digitsVal fp.1 : ℚ) / 10 ^ fp.1.length) fp.2
    else if ip.1 = [] then none
    else decodeExp sgn (digitsVal ip.1 : ℚ) (c :: r1)

/-- Models `fmt.Sscanf(l, "%f<suf>", &limit)`: scan a float token, decode
it, then require the next input character to equal the literal format
character `suf`; any input after that is ignored. -/
def sscanfFloatSuffix (s : List Char) (suf : Char) : Option ℚ :=
  let p := floatToken s
  match decodeTok p.1 with
  | none => none
  | some v =>
    match p.2 with
    | [] => none
    | c :: _ => if c = suf then some v else none

/-- A `rate.Limit` value: `rate.Inf` or a finite bytes-per-second rate. -/
inductive RateLimit where
  | inf : RateLimit
  | finite (q : ℚ) : RateLimit
deriving DecidableEq

/-- A `rate.Limiter` as far as qperf observes it: its limit and burst. -/
structure Limiter where
  limit : RateLimit
  burst : ℕ
deriving DecidableEq

/-- The error message built by `errors.New` in `limiterFromString`
(source spelling kept). -/
def parseFailMsg : String := "faild to parse download limit"

/-- Translation of `limiterFromString` (variant 2, lines 287-319):
empty string means no limiter and no error; otherwise try a plain float,
then the `%fK`, `%fM`, `%fG`, `%fT` forms in that order; the first
successful form builds `rate.NewLimiter(rate.Limit(1.25*mult*limit/8),
readChunkSize)`; if none succeeds, return a parse error. -/
def limiterFromString (l : List Char) : Except String (Option Limiter) :=
  if l = [] then .ok none
  else
    match decodeTok l with
    | some v => .ok (some ⟨.finite (1.25 * v / 8), readChunkSize⟩)
    | none =>
      match sscanfFloatSuffix l 'K' with
      | some v => .ok (some ⟨.finite (1.25 * 1000 * v / 8), readChunkSize⟩)
      | none =>
        match sscanfFloatSuffix l 'M' with
        | some v => .ok (some ⟨.finite (1.25 * 1000000 * v / 8), readChunkSize⟩)
        | none =>
          match sscanfFloatSuffix l 'G' with
          | some v =>
              .ok (some ⟨.finite (1.25 * 1000000000 * v / 8), readChunkSize⟩)
          | none =>
            match sscanfFloatSuffix l 'T' with
            | some v =>
                .ok (some ⟨.finite (1.25 * 1000000000000 * v / 8), readChunkSize⟩)
            | none => .error parseFailMsg

instance {ε α : Type} [DecidableEq ε] [DecidableEq α] : DecidableEq (Except ε α) := fun
  | .error e, .error f =>
    if h : e = f then .isTrue (by rw [h])
    else .isFalse (by intro hh; cases hh; exact h rfl)
  | .error _, .ok _ => .isFalse (by intro h; cases h)
  | .ok _, .error _ => .isFalse (by intro h; cases h)
  | .ok a, .ok b =>
    if h : a = b then .isTrue (by rw [h])
    else .isFalse (by intro hh; cases hh; exact h rfl)

/-- Limiter setup in `clientMain` (variant 2, lines 425-433): start from
the default `rate.NewLimiter(rate.Inf, 0)`; a parse error is fatal
(`glog.Exitf`, modelled as `none`: the run does not start); a parsed
limiter replaces the default. -/
def clientLimiterSetup (l : List Char) : Option Limiter :=
  match limiterFromString l with
  | .error _ => none
  | .ok none => some ⟨.inf, 0⟩
  | .ok (some lim) => some lim

/-! ### Unsigned decimal literals, used to quantify over the numeric values
that appear in bandwidth strings. -/

/-- An unsigned decimal float literal: integer-part digits and (possibly
empty) fraction-part digits; an empty fraction means no decimal point. -/
structure DecLit where
  intPart : List Char
  fracPart : List Char

/-- The string form of the literal. -/
def DecLit.render (d : DecLit) : List Char :=
  d.intPart ++ (if d.fracPart = [] then [] else '.' :: d.fracPart)

/-- The numeric value of the literal. -/
def DecLit.value (d : DecLit) : ℚ :=
  (digitsVal d.intPart : ℚ) + (digitsVal d.fracPart : ℚ) / 10 ^ d.fracPart.length

/-- Well-formedness: a nonempty integer part and only digit characters. -/
def DecLit.WF (d : DecLit) : Prop :=
  d.intPart ≠ [] ∧ (∀ c ∈ d.intPart, c.isDigit = true) ∧
    (∀ c ∈ d.fracPart, c.isDigit = true)

/-- The four bandwidth suffixes accepted by `limiterFromString`. -/
inductive Suffix where
  | K : Suffix
  | M : Suffix
  | G : Suffix
  | T : Suffix
deriving DecidableEq

/-- The suffix character. -/
def Suffix.char : Suffix → Char
  | K => 'K'
  | M => 'M'
  | G => 'G'
  | T => 'T'

/-- The decimal multiplier the spec assigns to each suffix. -/
def Suffix.mult : Suffix → ℚ
  | K => 1000
  | M => 1000000
  | G => 1000000000
  | T => 1000000000000

/-- Input on which number scanning stops: empty, or headed by a character
that extends neither the digits, the fraction, nor the exponent. -/
def numStop : List Char → Prop
  | [] => True
  | c :: _ => c.isDigit = false ∧ c ≠ '.' ∧ c ≠ 'e' ∧ c ≠ 'E'

lemma digit_not_sign {c : Char} (h : c.isDigit = true) : ¬(c = '+' ∨ c = '-') := by
  rintro (rfl | rfl) <;> exact absurd h (by decide)

lemma takeDigits_append (ds rest : List Char) (hd : ∀ c ∈ ds, c.isDigit = true)
    (hr : ∀ c t, rest = c :: t → c.isDigit = false) :
    takeDigits (ds ++ rest) = (ds, rest) := by
  induction ds with
  | nil =>
    simp only [List.nil_append]
    cases rest with
    | nil => rfl
    | cons c t => simp [takeDigits, hr c t rfl]
  | cons c ds ih =>
    have hc : c.isDigit = true := hd c (by simp)
    have ih' := ih fun x hx => hd x (by simp [hx])
    simp [takeDigits, hc, ih']

lemma scanSign_of_not_sign (s : List Char)
    (h : ∀ c t, s = c :: t → ¬(c = '+' ∨ c = '-')) : scanSign s = ([], s) := by
  cases s with
  | nil => rfl
  | cons c t => simp [scanSign, h c t rfl]

lemma scanFrac_of_not_dot (s : List Char)
    (h : ∀ c t, s = c :: t → c ≠ '.') : scanFrac s = ([], s) := by
  cases s with
  | nil => rfl
  | cons c t => simp [scanFrac, h c t rfl]

lemma scanExp_of_not_exp (s : List Char)
    (h : ∀ c t, s = c :: t → ¬(c = 'e' ∨ c = 'E')) : scanExp s = ([], s) := by
  cases s with
  | nil => rfl
  | cons c t => simp [scanExp, h c t rfl]

lemma numStop_not_digit {rest : List Char} (hr : numStop rest) :
    ∀ c t, rest = c :: t → c.isDigit = false := by
  intro c t hct; subst hct; exact hr.1

lemma numStop_not_dot {rest : List Char} (hr : numStop rest) :
    ∀ c t, rest = c :: t → c ≠ '.' := by
  intro c t hct; subst hct; exact hr.2.1

lemma numStop_not_exp {rest : List Char} (hr : numStop rest) :
    ∀ c t, rest = c :: t → ¬(c = 'e' ∨ c = 'E') := by
  intro c t hct; subst hct
  rintro (rfl | rfl)
  · exact hr.2.2.1 rfl
  · exact hr.2.2.2 rfl

lemma scanSign_render_append (d : DecLit) (rest : List Char) (h : d.WF) :
    scanSign (d.render ++ rest) = ([], d.render ++ rest) := by
  obtain ⟨hne, hint, _⟩ := h
  apply scanSign_of_not_sign
  intro c t hct
  cases hip : d.intPart with
  | nil => exact absurd hip hne
  | cons c0 ip =>
    have : c0 = c := by
      rw [DecLit.render, hip] at hct
      simpa using congrArg List.head? hct
    subst this
    exact digit_not_sign (hint c0 (by simp [hip]))

lemma floatToken_render (d : DecLit) (rest : List Char) (h : d.WF)
    (hr : numStop rest) : floatToken (d.render ++ rest) = (d.render, rest) := by
  obtain ⟨hne, hint, hfrac⟩ := h
  have h1 := scanSign_render_append d rest ⟨hne, hint, hfrac⟩
  have h4 := scanExp_of_not_exp rest (numStop_not_exp hr)
  by_cases hf : d.fracPart = []
  · have hrend : d.render = d.intPart := by simp [DecLit.render, hf]
    have h2 : takeDigits (d.intPart ++ rest) = (d.intPart, rest) :=
      takeDigits_append _ _ hint (numStop_not_digit hr)
    have h3 := scanFrac_of_not_dot rest (numStop_not_dot hr)
    simp [floatToken, hrend, h1, h2, h3, h4, hrend ▸ h1]
  · have hrend : d.render ++ rest = d.intPart ++ ('.' :: (d.fracPart ++ rest)) := by
      simp [DecLit.render, hf]
    have h2 : takeDigits (d.intPart ++ ('.' :: (d.fracPart ++ rest))) =
        (d.intPart, '.' :: (d.fracPart ++ rest)) := by
      apply takeDigits_append _ _ hint
      intro c t hct
      cases hct
      decide
    have h3 : scanFrac ('.' :: (d.fracPart ++ rest)) = ('.' :: d.fracPart, rest) := by
      simp [scanFrac, takeDigits_append _ _ hfrac (numStop_not_digit hr)]
    rw [hrend] at h1 ⊢
    simp [floatToken, h1, h2, h3, h4, DecLit.render, hf]

lemma decodeTok_render (d : DecLit) (h : d.WF) :
    decodeTok d.render = some d.value := by
  obtain ⟨hne, hint, hfrac⟩ := h
  have h1 : scanSign d.render = ([], d.render) := by
    have := scanSign_render_append d [] ⟨hne, hint, hfrac⟩
    simpa using this
  by_cases hf : d.fracPart = []
  · have hrend : d.render = d.intPart := by simp [DecLit.render, hf]
    have h2 : takeDigits d.intPart = (d.intPart, []) := by
      have := takeDigits_append d.intPart [] hint (fun c t hct => nomatch hct)
      simpa using this
    rw [hrend] at h1 ⊢
    simp [decodeTok, h1, h2, hne, decodeExp, DecLit.value, hf, digitsVal]
  · have hrend : d.render = d.intPart ++ ('.' :: d.fracPart) := by
      simp [DecLit.render, hf]
    have h2 : takeDigits (d.intPart ++ ('.' :: d.fracPart)) =
        (d.intPart, '.' :: d.fracPart) := by
      apply takeDigits_append _ _ hint
      intro c t hct
      cases hct
      decide
    have h3 : takeDigits d.fracPart = (d.fracPart, []) := by
      have := takeDigits_append d.fracPart [] hfrac (fun c t hct => nomatch hct)
      simpa using this
    rw [hrend] at h1 ⊢
    simp [decodeTok, h1, h2, h3, hne, decodeExp, DecLit.value]

lemma decodeTok_render_append (d : DecLit) (c : Char) (t : List Char)
    (h : d.WF) (hr : numStop (c :: t)) :
    decodeTok (d.render ++ c :: t) = none := by
  obtain ⟨hne, hint, hfrac⟩ := h
  have h1 := scanSign_render_append d (c :: t) ⟨hne, hint, hfrac⟩
  have hcd : c.isDigit = false := hr.1
  have hcdot : c ≠ '.' := hr.2.1
  have hce : ¬(c = 'e' ∨ c = 'E') := numStop_not_exp hr c t rfl
  by_cases hf : d.fracPart = []
  · have hrend : d.render = d.intPart := by simp [DecLit.render, hf]
    have h2 : takeDigits (d.intPart ++ c :: t) = (d.intPart, c :: t) :=
      takeDigits_append _ _ hint (numStop_not_digit hr)
    rw [hrend] at h1 ⊢
    simp [decodeTok, h1, h2, hne, hcdot, decodeExp, hce]
  · have hrend : d.render ++ c :: t = d.intPart ++ ('.' :: (d.fracPart ++ c :: t)) := by
      simp [DecLit.render, hf]
    have h2 : takeDigits (d.intPart ++ ('.' :: (d.fracPart ++ c :: t))) =
        (d.intPart, '.' :: (d.fracPart ++ c :: t)) := by
      apply takeDigits_append _ _ hint
      intro x s hct
      cases hct
      decide
    have h3 : takeDigits (d.fracPart ++ c :: t) = (d.fracPart, c :: t) :=
      takeDigits_append _ _ hfrac (numStop_not_digit hr)
    rw [hrend] at h1 ⊢
    simp [decodeTok, h1, h2, h3, hne, decodeExp, hce]

lemma sscanfFloatSuffix_render (d : DecLit) (c : Char) (t : List Char)
    (suf : Char) (h : d.WF) (hr : numStop (c :: t)) :
    sscanfFloatSuffix (d.render ++ c :: t) suf =
      if c = suf then some d.value else none := by
  unfold sscanfFloatSuffix
  rw [floatToken_render d (c :: t) h hr]
  simp [decodeTok_render d h]

lemma numStop_suffix (S : Suffix) (t : List Char) : numStop (S.char :: t) := by
  cases S <;> exact ⟨by decide, by decide, by decide, by decide⟩

lemma limiterFromString_suffixed (d : DecLit) (S : Suffix) (t : List Char)
    (h : d.WF) :
    limiterFromString (d.render ++ S.char :: t) =
      .ok (some ⟨.finite (1.25 * S.mult * d.value / 8), readChunkSize⟩) := by
  have hstop := numStop_suffix S t
  have hne : d.render ++ S.char :: t ≠ [] := by simp
  unfold limiterFromString
  rw [if_neg hne, decodeTok_render_append d _ _ h hstop]
  rw [sscanfFloatSuffix_render d _ t 'K' h hstop,
      sscanfFloatSuffix_render d _ t 'M' h hstop,
      sscanfFloatSuffix_render d _ t 'G' h hstop,
      sscanfFloatSuffix_render d _ t 'T' h hstop]
  cases S <;> simp [Suffix.char, Suffix.mult]

lemma limiterFromString_plain (d : DecLit) (h : d.WF) :
    limiterFromString d.render =
      .ok (some ⟨.finite (1.25 * d.value / 8), readChunkSize⟩) := by
  have hne : d.render ≠ [] := by
    obtain ⟨h1, _, _⟩ := h
    simp [DecLit.render, h1]
  unfold limiterFromString
  rw [if_neg hne, decodeTok_render d h]

/-! ### Stream I/O trace models.

Each call on the QUIC stream is an entry of a trace supplied by the
external transport: the byte count the call reported and its optional
error.  A loop model returns `none` when the trace ends while the loop
would keep running, and the exit record otherwise. -/

/-- Error outcome of one `s.Write(data[:])` call: a `*quic.ApplicationError`
with its code, or any other error. -/
inductive WErr where
  | app (code : ℕ) : WErr
  | other : WErr
deriving DecidableEq

/-- Outcome of one write call: bytes reported written, optional error. -/
structure WriteRes where
  bytes : ℕ
  err : Option WErr
deriving DecidableEq

/-- How a sender session's write loop ended: the byte counter logged by the
deferred `Infof`, whether the loop returned without surfacing an error,
whether `glog.Errorf` ran, and whether the whole process terminated. -/
structure SenderExit where
  nBytes : ℕ
  success : Bool
  logged : Bool
  processExited : Bool
deriving DecidableEq

/-- Write loop of variant 1's `serverMain` (lines 110-123): write forever;
on an application error with code 0 return silently; on any other error
log with `glog.Errorf` and return; on success add the reported count. -/
def senderWriteLoop (c : ℕ) : List WriteRes → Option SenderExit
  | [] => none
  | r :: rest =>
    match r.err with
    | none => senderWriteLoop (c + r.bytes) rest
    | some (.app 0) => some ⟨c, true, false, false⟩
    | some _ => some ⟨c, false, true, false⟩

/-- Write loop of variants 2 and 3 (`for nBytes <= totalData`, lines
372-380 and 581-589): write while the counter is at most the cap; any
write error is logged with `glog.Errorf` and ends the session; on success
add the reported count. -/
def senderWriteLoopCapped (cap c : ℕ) (writes : List WriteRes) :
    Option SenderExit :=
  if c ≤ cap then
    match writes with
    | [] => none
    | r :: rest =>
      match r.err with
      | some _ => some ⟨c, false, true, false⟩
      | none => senderWriteLoopCapped cap (c + r.bytes) rest
  else some ⟨c, true, false, false⟩

/-- Error outcome of one `s.Read(discard[:])` call: `io.EOF`, a
`net.Error` whose `Timeout()` is true (read deadline exceeded), or any
other error. -/
inductive RErr where
  | eof : RErr
  | timeout : RErr
  | other : RErr
deriving DecidableEq

/-- Outcome of one read call: bytes reported read, optional error. -/
structure ReadRes where
  bytes : ℕ
  err : Option RErr
deriving DecidableEq

/-- How a receiver session ended: the final byte counter, whether the
`Received ... Kbits/s` statistics line was printed, whether an error was
logged, and whether `glog.Exitf` terminated the process. -/
structure RecvExit where
  bytes : ℕ
  statsPrinted : Bool
  logged : Bool
  processExited : Bool
deriving DecidableEq

/-- Read loop of variant 1's `clientMain` (lines 180-211), as called from
`main` with `context.Background()` (whose done channel never fires, so the
`select` default is taken every iteration): the reported count is added
before the error check; `io.EOF` and a deadline timeout break silently,
any other error is logged with `glog.Errorf` and breaks; on every break
the statistics line is printed. -/
def clientReadLoop (c : ℕ) : List ReadRes → Option RecvExit
  | [] => none
  | r :: rest =>
    match r.err with
    | none => clientReadLoop (c + r.bytes) rest
    | some .eof => some ⟨c + r.bytes, true, false, false⟩
    | some .timeout => some ⟨c + r.bytes, true, false, false⟩
    | some .other => some ⟨c + r.bytes, true, true, false⟩

/-- Read loop of variant 2's `clientMain` (lines 440-460): the reported
count is added before the error check; `io.EOF` breaks and the statistics
line is printed; any other error (there is no deadline or timeout check in
this variant) hits `glog.Exitf`: it is logged and the process exits before
the statistics line. -/
def clientReadLoopLimited (c : ℕ) : List ReadRes → Option RecvExit
  | [] => none
  | r :: rest =>
    match r.err with
    | none => clientReadLoopLimited (c + r.bytes) rest
    | some .eof => some ⟨c + r.bytes, true, false, false⟩
    | some _ => some ⟨c + r.bytes, false, true, true⟩

/-! ### Statistics reporter. -/

/-- Value of the float64 throughput expression: a finite rational (exact —
every claimed instance is exactly representable), a signed infinity, or
NaN. -/
inductive FVal where
  | num (q : ℚ) : FVal
  | posInf : FVal
  | negInf : FVal
  | nan : FVal
deriving DecidableEq

/-- IEEE-754 division of two finite float64 values, exact over `ℚ`:
division by zero yields a signed infinity (or NaN for 0/0); it never
faults. -/
def fdiv (a b : ℚ) : FVal :=
  if b = 0 then (if 0 < a then .posInf else if a < 0 then .negInf else .nan)
  else .num (a / b)

/-- The rate printed by `clientMain`:
`((float64(n)/1e3)*8)/float64(durS)` with `durS = float64(dur)/1e9`,
where `dur` is the elapsed time in nanoseconds (lines 206-211). -/
def reportedRateKbits (n durNs : ℕ) : FVal :=
  fdiv ((n : ℚ) / 1000 * 8) ((durNs : ℚ) / 1000000000)

/-- Modelled from the spec: throughput in kilobits/sec computed as
`(bytes / 1000) × 8 / seconds`, for comparison with the code's
expression. -/
def specThroughputKbits (bytes : ℕ) (seconds : ℚ) : ℚ :=
  ((bytes : ℚ) / 1000) * 8 / seconds

/-! ### Role selection in `main`. -/

/-- One iteration's outcome of `l.Accept(ctx)` in the accept loop. -/
inductive AcceptEvent where
  | failed : AcceptEvent
  | connected : AcceptEvent
deriving DecidableEq

/-- Where control of `serverMain` can be: it returned to `main`, the
process exited (`glog.Exitf` on a fatal setup error), or the accept loop
is still running. -/
inductive ServerStatus where
  | returnedToCaller : ServerStatus
  | processExited : ServerStatus
  | stillLooping : ServerStatus
deriving DecidableEq

/-- The accept loop of `serverMain` (all variants): on an accept error,
log and `continue`; on success, spawn a handler goroutine and continue.
The loop body has no break or return, so each iteration only consumes
fuel and another accept outcome. -/
def serverAcceptLoop : ℕ → List AcceptEvent → ServerStatus
  | 0, _ => .stillLooping
  | _ + 1, [] => .stillLooping
  | fuel + 1, _ :: evs => serverAcceptLoop fuel evs

/-- `serverMain`: a fatal setup error (random bytes, TLS key pair,
listen) calls `glog.Exitf`; otherwise the accept loop runs. -/
def serverMainRun (setupOk : Bool) (fuel : ℕ) (evs : List AcceptEvent) :
    ServerStatus :=
  if setupOk then serverAcceptLoop fuel evs else .processExited

/-- Which benchmark roles one invocation performed. -/
inductive RolesPerformed where
  | senderOnly : RolesPerformed
  | receiverOnly : RolesPerformed
  | both : RolesPerformed
deriving DecidableEq

/-- `main` (all variants): `if *serve { serverMain(ctx) }; clientMain(ctx)`.
There is no `return` after the `serverMain` call, so `clientMain` would
also run — performing both roles — exactly if `serverMain` returned to its
caller. -/
def mainRoles (serveFlag setupOk : Bool) (fuel : ℕ) (evs : List AcceptEvent) :
    RolesPerformed :=
  if serveFlag then
    match serverMainRun setupOk fuel evs with
    | .returnedToCaller => .both
    | .processExited => .senderOnly
    | .stillLooping => .senderOnly
  else .receiverOnly

/-! ### Helper lemmas about the loop models. -/

lemma senderWriteLoop_append_ok :
    ∀ (pre : List WriteRes), (∀ r ∈ pre, r.err = none) →
      ∀ (c : ℕ) (tail : List WriteRes),
        senderWriteLoop c (pre ++ tail) =
          senderWriteLoop (c + (pre.map WriteRes.bytes).sum) tail := by
  intro pre
  induction pre with
  | nil => intro _ c tail; simp [senderWriteLoop]
  | cons r pre ih =>
    intro hpre c tail
    obtain ⟨b, e⟩ := r
    have he : e = none := by simpa using hpre ⟨b, e⟩ (by simp)
    subst he
    have ih' := ih (fun x hx => hpre x (by simp [hx])) (c + b) tail
    simp only [List.cons_append, senderWriteLoop, List.append_eq] at ih' ⊢
    rw [ih']
    simp [Nat.add_assoc]

lemma clientReadLoop_append_ok :
    ∀ (pre : List ReadRes), (∀ r ∈ pre, r.err = none) →
      ∀ (c : ℕ) (tail : List ReadRes),
        clientReadLoop c (pre ++ tail) =
          clientReadLoop (c + (pre.map ReadRes.bytes).sum) tail := by
  intro pre
  induction pre with
  | nil => intro _ c tail; simp [clientReadLoop]
  | cons r pre ih =>
    intro hpre c tail
    obtain ⟨b, e⟩ := r
    have he : e = none := by simpa using hpre ⟨b, e⟩ (by simp)
    subst he
    have ih' := ih (fun x hx => hpre x (by simp [hx])) (c + b) tail
    simp only [List.cons_append, clientReadLoop, List.append_eq] at ih' ⊢
    rw [ih']
    simp [Nat.add_assoc]

lemma clientReadLoopLimited_append_ok :
    ∀ (pre : List ReadRes), (∀ r ∈ pre, r.err = none) →
      ∀ (c : ℕ) (tail : List ReadRes),
        clientReadLoopLimited c (pre ++ tail) =
          clientReadLoopLimited (c + (pre.map ReadRes.bytes).sum) tail := by
  intro pre
  induction pre with
  | nil => intro _ c tail; simp [clientReadLoopLimited]
  | cons r pre ih =>
    intro hpre c tail
    obtain ⟨b, e⟩ := r
    have he : e = none := by simpa using hpre ⟨b, e⟩ (by simp)
    subst he
    have ih' := ih (fun x hx => hpre x (by simp [hx])) (c + b) tail
    simp only [List.cons_append, clientReadLoopLimited, List.append_eq] at ih' ⊢
    rw [ih']
    simp [Nat.add_assoc]

lemma senderWriteLoop_mono :
    ∀ (tr : List WriteRes) (c : ℕ) (ex : SenderExit),
      senderWriteLoop c tr = some ex → c ≤ ex.nBytes := by
  intro tr
  induction tr with
  | nil => intro c ex h; simp [senderWriteLoop] at h
  | cons r tr ih =>
    intro c ex h
    obtain ⟨nb, s, lg, pe⟩ := ex
    obtain ⟨b, e⟩ := r
    match e with
    | none =>
      simp only [senderWriteLoop] at h
      exact le_trans (Nat.le_add_right c b) (ih _ _ h)
    | some (.app 0) =>
      simp only [senderWriteLoop, Option.some.injEq, SenderExit.mk.injEq] at h
      exact le_of_eq h.1
    | some (.app (m + 1)) =>
      simp only [senderWriteLoop, Option.some.injEq, SenderExit.mk.injEq] at h
      exact le_of_eq h.1
    | some .other =>
      simp only [senderWriteLoop, Option.some.injEq, SenderExit.mk.injEq] at h
      exact le_of_eq h.1

lemma clientReadLoop_mono :
    ∀ (tr : List ReadRes) (c : ℕ) (ex : RecvExit),
      clientReadLoop c tr = some ex → c ≤ ex.bytes := by
  intro tr
  induction tr with
  | nil => intro c ex h; simp [clientReadLoop] at h
  | cons r tr ih =>
    intro c ex h
    obtain ⟨nb, s, lg, pe⟩ := ex
    obtain ⟨b, e⟩ := r
    match e with
    | none =>
      simp only [clientReadLoop] at h
      exact le_trans (Nat.le_add_right c b) (ih _ _ h)
    | some .eof =>
      simp only [clientReadLoop, Option.some.injEq, RecvExit.mk.injEq] at h
      rw [← h.1]; exact Nat.le_add_right c b
    | some .timeout =>
      simp only [clientReadLoop, Option.some.injEq, RecvExit.mk.injEq] at h
      rw [← h.1]; exact Nat.le_add_right c b
    | some .other =>
      simp only [clientReadLoop, Option.some.injEq, RecvExit.mk.injEq] at h
      rw [← h.1]; exact Nat.le_add_right c b

lemma senderWriteLoopCapped_bounds (cap B : ℕ) :
    ∀ (tr : List WriteRes) (c : ℕ) (ex : SenderExit),
      (∀ r ∈ tr, r.err = none) → (∀ r ∈ tr, r.bytes ≤ B) →
      senderWriteLoopCapped cap c tr = some ex → c ≤ cap →
      cap < ex.nBytes ∧ ex.nBytes ≤ cap + B := by
  intro tr
  induction tr with
  | nil =>
    intro c ex _ _ hrun hc
    simp [senderWriteLoopCapped, hc] at hrun
  | cons r tr ih =>
    intro c ex herr hb hrun hc
    obtain ⟨b, e⟩ := r
    have he : e = none := by simpa using herr ⟨b, e⟩ (by simp)
    subst he
    have hble : b ≤ B := by simpa using hb ⟨b, none⟩ (by simp)
    rw [senderWriteLoopCapped.eq_def] at hrun
    rw [if_pos hc] at hrun
    simp only at hrun
    by_cases h2 : c + b ≤ cap
    · exact ih (c + b) ex (fun x hx => herr x (by simp [hx]))
        (fun x hx => hb x (by simp [hx])) hrun h2
    · rw [senderWriteLoopCapped.eq_def, if_neg h2] at hrun
      obtain ⟨nb, s, lg, pe⟩ := ex
      simp only [Option.some.injEq, SenderExit.mk.injEq] at hrun
      refine ⟨?_, ?_⟩ <;> simp only [← hrun.1] <;> omega

lemma senderWriteLoopCapped_replicate (cap B : ℕ) :
    ∀ (k c : ℕ), (∀ j < k, c + j * B ≤ cap) → cap < c + k * B →
      senderWriteLoopCapped cap c (List.replicate k ⟨B, none⟩) =
        some ⟨c + k * B, true, false, false⟩ := by
  intro k
  induction k with
  | zero =>
    intro c _ hgt
    have hnc : ¬ c ≤ cap := by omega
    rw [senderWriteLoopCapped.eq_def, if_neg hnc]
    simp
  | succ k ih =>
    intro c hle hgt
    have hc : c ≤ cap := by simpa using hle 0 (Nat.succ_pos k)
    have hle' : ∀ j < k, (c + B) + j * B ≤ cap := by
      intro j hj
      have h' := hle (j + 1) (by omega)
      calc c + B + j * B = c + (j + 1) * B := by ring
        _ ≤ cap := h'
    have hgt' : cap < (c + B) + k * B := by
      calc cap < c + (k + 1) * B := hgt
        _ = c + B + k * B := by ring
    have hrec := ih (c + B) hle' hgt'
    rw [List.replicate_succ, senderWriteLoopCapped.eq_def, if_pos hc]
    simp only
    rw [hrec]
    have harith : c + B + k * B = c + (k + 1) * B := by ring
    rw [harith]

lemma serverAcceptLoop_ne_returned :
    ∀ (fuel : ℕ) (evs : List AcceptEvent),
      serverAcceptLoop fuel evs ≠ .returnedToCaller := by
  intro fuel
  induction fuel with
  | zero => intro evs; simp [serverAcceptLoop]
  | succ f ih =>
    intro evs
    cases evs with
    | nil => simp [serverAcceptLoop]
    | cons e evs => simpa [serverAcceptLoop] using ih evs

lemma mainRoles_eq (serveFlag setupOk : Bool) (fuel : ℕ)
    (evs : List AcceptEvent) :
    mainRoles serveFlag setupOk fuel evs =
      if serveFlag then .senderOnly else .receiverOnly := by
  cases serveFlag with
  | false => simp [mainRoles]
  | true =>
    cases setupOk with
    | false => simp [mainRoles, serverMainRun]
    | true =>
      simp only [mainRoles, serverMainRun, if_true]
      cases hstatus : serverAcceptLoop fuel evs with
      | returnedToCaller =>
        exact absurd hstatus (serverAcceptLoop_ne_returned fuel evs)
      | processExited => simp
      | stillLooping => simp

/-! ### The claims. -/

/-- C1: for every decimal numeric value and every suffix S in {K, M, G, T},
parsing the bandwidth string value-then-S yields a token-bucket rate of
1.25 × multiplier(S) × value / 8 bytes per second with multiplier(K)=1e3,
multiplier(M)=1e6, multiplier(G)=1e9, multiplier(T)=1e12; a plain
unsuffixed value yields rate 1.25 × value / 8; every successful parse has
burst = readChunkSize = 8192 bytes. -/
theorem C1_bandwidth_parse (d : DecLit) (h : d.WF) (S : Suffix) :
    limiterFromString (d.render ++ [S.char]) =
      .ok (some ⟨.finite (1.25 * S.mult * d.value / 8), readChunkSize⟩) ∧
    limiterFromString d.render =
      .ok (some ⟨.finite (1.25 * d.value / 8), readChunkSize⟩) ∧
    readChunkSize = 8192 :=
  ⟨limiterFromString_suffixed d S [] h, limiterFromString_plain d h, by decide⟩

/-- Witness for C1 at the concrete literal 1.5 with suffix K. -/
theorem C1_bandwidth_parse_witness :
    DecLit.WF ⟨['1'], ['5']⟩ ∧
    limiterFromString (DecLit.render ⟨['1'], ['5']⟩ ++ [Suffix.char .K]) =
      .ok (some ⟨.finite (1.25 * Suffix.mult .K * DecLit.value ⟨['1'], ['5']⟩ / 8),
        readChunkSize⟩) ∧
    limiterFromString (DecLit.render ⟨['1'], ['5']⟩) =
      .ok (some ⟨.finite (1.25 * DecLit.value ⟨['1'], ['5']⟩ / 8),
        readChunkSize⟩) := by
  have hwf : DecLit.WF ⟨['1'], ['5']⟩ := by
    unfold DecLit.WF
    refine ⟨by decide, by decide, by decide⟩
  have h := C1_bandwidth_parse ⟨['1'], ['5']⟩ hwf .K
  exact ⟨hwf, h.1, h.2.1⟩

/-- C2: the reported throughput equals the spec formula
(bytes / 1000) × 8 / seconds kilobits per second for every positive
elapsed duration, and at bytes = 125000 and elapsed exactly 1.000 s the
reported rate is 1000. -/
theorem C2_throughput :
    (∀ (n durNs : ℕ), 0 < durNs →
      reportedRateKbits n durNs =
        .num (specThroughputKbits n ((durNs : ℚ) / 1000000000))) ∧
    reportedRateKbits 125000 1000000000 = .num 1000 := by
  constructor
  · intro n durNs hd
    have h0 : (0 : ℚ) < (durNs : ℚ) := by exact_mod_cast hd
    have hb : ((durNs : ℚ) / 1000000000) ≠ 0 := by positivity
    simp [reportedRateKbits, fdiv, hb, specThroughputKbits]
  · unfold reportedRateKbits fdiv
    rw [if_neg (by norm_num : ((1000000000 : ℕ) : ℚ) / 1000000000 ≠ 0)]
    norm_num

/-- Witness for C2 at bytes = 125000, elapsed = 10^9 ns. -/
theorem C2_throughput_witness :
    0 < 1000000000 ∧
    reportedRateKbits 125000 1000000000 =
      .num (specThroughputKbits 125000 (((1000000000 : ℕ) : ℚ) / 1000000000)) :=
  ⟨by decide, C2_throughput.1 125000 1000000000 (by decide)⟩

/-- C3: in the duration-variant sender write loop, a write error that is
an application error with code 0 ends the session as a success with
nothing logged; an application error with any non-zero code, or any other
write error, is logged and ends only that session — the process never
exits. -/
theorem C3_graceful_stop (pre : List WriteRes) (hpre : ∀ r ∈ pre, r.err = none)
    (k c : ℕ) (rest : List WriteRes) :
    senderWriteLoop c (pre ++ ⟨k, some (.app 0)⟩ :: rest) =
      some ⟨c + (pre.map WriteRes.bytes).sum, true, false, false⟩ ∧
    (∀ code : ℕ, code ≠ 0 →
      senderWriteLoop c (pre ++ ⟨k, some (.app code)⟩ :: rest) =
        some ⟨c + (pre.map WriteRes.bytes).sum, false, true, false⟩) ∧
    senderWriteLoop c (pre ++ ⟨k, some .other⟩ :: rest) =
      some ⟨c + (pre.map WriteRes.bytes).sum, false, true, false⟩ := by
  simp only [senderWriteLoop_append_ok pre hpre]
  refine ⟨by simp [senderWriteLoop], ?_, by simp [senderWriteLoop]⟩
  intro code hcode
  obtain ⟨m, rfl⟩ := Nat.exists_eq_succ_of_ne_zero hcode
  simp [senderWriteLoop]

/-- Witness for C3: one full write then an abort with code 0, and the same
prefix then an application error with code 3. -/
theorem C3_graceful_stop_witness :
    (∀ r ∈ [(⟨65536, none⟩ : WriteRes)], r.err = none) ∧
    senderWriteLoop 0 ([(⟨65536, none⟩ : WriteRes)] ++ [⟨0, some (.app 0)⟩]) =
      some ⟨65536, true, false, false⟩ ∧
    (3 : ℕ) ≠ 0 ∧
    senderWriteLoop 0 ([(⟨65536, none⟩ : WriteRes)] ++ [⟨0, some (.app 3)⟩]) =
      some ⟨65536, false, true, false⟩ := by
  have hpre : ∀ r ∈ [(⟨65536, none⟩ : WriteRes)], r.err = none := by
    intro r hr
    simp only [List.mem_singleton] at hr
    subst hr
    rfl
  have h := C3_graceful_stop [(⟨65536, none⟩ : WriteRes)] hpre 0 0 []
  refine ⟨hpre, ?_, by decide, ?_⟩
  · simpa using h.1
  · simpa using h.2.1 3 (by decide)

/-- C4: a capped sender session with no write error, when it terminates,
ends with a byte counter strictly greater than the cap
totalData = 10 × 2^30 and at most the cap plus one payload-buffer length
payloadLen = 65536. -/
theorem C4_byte_cap (tr : List WriteRes) (ex : SenderExit)
    (herr : ∀ r ∈ tr, r.err = none) (hb : ∀ r ∈ tr, r.bytes ≤ payloadLen)
    (hrun : senderWriteLoopCapped totalData 0 tr = some ex) :
    totalData < ex.nBytes ∧ ex.nBytes ≤ totalData + payloadLen ∧
      totalData = 10 * 2 ^ 30 ∧ payloadLen = 65536 := by
  have h := senderWriteLoopCapped_bounds totalData payloadLen tr 0 ex herr hb
    hrun (Nat.zero_le _)
  exact ⟨h.1, h.2, by decide, by decide⟩

/-- Witness for C4: 163841 full 65536-byte writes drive the counter from 0
to 10737483776, one buffer past the 10737418240-byte cap. -/
theorem C4_byte_cap_witness :
    senderWriteLoopCapped totalData 0 (List.replicate 163841 ⟨65536, none⟩) =
      some ⟨10737483776, true, false, false⟩ ∧
    totalData < 10737483776 ∧ (10737483776 : ℕ) ≤ totalData + payloadLen := by
  have herr : ∀ r ∈ List.replicate 163841 (⟨65536, none⟩ : WriteRes),
      r.err = none := by
    intro r hr
    rw [List.eq_of_mem_replicate hr]
  have hb : ∀ r ∈ List.replicate 163841 (⟨65536, none⟩ : WriteRes),
      r.bytes ≤ payloadLen := by
    intro r hr
    rw [List.eq_of_mem_replicate hr]
    decide
  have hle : ∀ j < 163841, 0 + j * 65536 ≤ totalData := by
    intro j hj
    have hj' : j ≤ 163840 := by omega
    have h1 : j * 65536 ≤ 163840 * 65536 := Nat.mul_le_mul_right _ hj'
    have h2 : 163840 * 65536 = totalData := by decide
    omega
  have hgt : totalData < 0 + 163841 * 65536 := by decide
  have hrun := senderWriteLoopCapped_replicate totalData 65536 163841 0 hle hgt
  have hval : (0 + 163841 * 65536 : ℕ) = 10737483776 := by decide
  rw [hval] at hrun
  have h := C4_byte_cap _ _ herr hb hrun
  exact ⟨hrun, h.1, h.2.1⟩

/-- C5 counterexample: a write that moves 100 bytes and then reports an
error leaves the sender counter at 0 — the bytes moved before the error
are not added, so the claim fails at this input. -/
theorem C5_counterexample :
    (senderWriteLoop 0 [⟨100, some .other⟩]).map SenderExit.nBytes = some 0 ∧
    (senderWriteLoop 0 [⟨100, some .other⟩]).map SenderExit.nBytes ≠
      some 100 := by
  decide

/-- C5 (amended): on both sides the byte counter is monotonically
non-decreasing and grows by exactly the reported count of each error-free
transfer; the receiver also adds the reported bytes of an erroring read
before handling the error, but the sender discards the reported byte count
of an erroring write, counting only error-free writes. -/
theorem C5_byte_counters :
    (∀ (tr : List WriteRes) (c : ℕ) (ex : SenderExit),
      senderWriteLoop c tr = some ex → c ≤ ex.nBytes) ∧
    (∀ (tr : List ReadRes) (c : ℕ) (ex : RecvExit),
      clientReadLoop c tr = some ex → c ≤ ex.bytes) ∧
    (∀ (c k : ℕ) (tr : List WriteRes),
      senderWriteLoop c (⟨k, none⟩ :: tr) = senderWriteLoop (c + k) tr) ∧
    (∀ (c k : ℕ) (tr : List ReadRes),
      clientReadLoop c (⟨k, none⟩ :: tr) = clientReadLoop (c + k) tr) ∧
    (∀ (c k : ℕ) (e : RErr) (rest : List ReadRes) (ex : RecvExit),
      clientReadLoop c (⟨k, some e⟩ :: rest) = some ex → ex.bytes = c + k) ∧
    (∀ (c k : ℕ) (e : WErr) (rest : List WriteRes) (ex : SenderExit),
      senderWriteLoop c (⟨k, some e⟩ :: rest) = some ex → ex.nBytes = c) := by
  refine ⟨senderWriteLoop_mono, clientReadLoop_mono, ?_, ?_, ?_, ?_⟩
  · intro c k tr
    simp [senderWriteLoop]
  · intro c k tr
    simp [clientReadLoop]
  · intro c k e rest ex hrun
    obtain ⟨nb, s, lg, pe⟩ := ex
    cases e <;>
      (simp only [clientReadLoop, Option.some.injEq, RecvExit.mk.injEq] at hrun;
       exact hrun.1.symm)
  · intro c k e rest ex hrun
    obtain ⟨nb, s, lg, pe⟩ := ex
    cases e with
    | app code =>
      cases code with
      | zero =>
        simp only [senderWriteLoop, Option.some.injEq,
          SenderExit.mk.injEq] at hrun
        exact hrun.1.symm
      | succ m =>
        simp only [senderWriteLoop, Option.some.injEq,
          SenderExit.mk.injEq] at hrun
        exact hrun.1.symm
    | other =>
      simp only [senderWriteLoop, Option.some.injEq,
        SenderExit.mk.injEq] at hrun
      exact hrun.1.symm

/-- Witness for C5 (amended) at concrete erroring transfers on both sides. -/
theorem C5_byte_counters_witness :
    senderWriteLoop 0 [(⟨7, some .other⟩ : WriteRes)] =
      some ⟨0, false, true, false⟩ ∧
    (0 : ℕ) ≤ (0 : ℕ) ∧
    clientReadLoop 5 [(⟨7, some .other⟩ : ReadRes)] =
      some ⟨12, true, true, false⟩ ∧
    (12 : ℕ) = 5 + 7 := by
  have h1 : senderWriteLoop 0 [(⟨7, some .other⟩ : WriteRes)] =
      some ⟨0, false, true, false⟩ := by decide
  have h2 : clientReadLoop 5 [(⟨7, some .other⟩ : ReadRes)] =
      some ⟨12, true, true, false⟩ := by decide
  refine ⟨h1, ?_, h2, ?_⟩
  · exact C5_byte_counters.1 _ 0 _ h1
  · exact C5_byte_counters.2.2.2.2.1 5 7 .other [] _ h2

/-- C6: with elapsed duration exactly zero the throughput expression is
still defined — it evaluates to +Inf for a positive byte count and to NaN
(the undefined marker) for zero bytes, never an arithmetic fault. -/
theorem C6_zero_duration (n : ℕ) :
    reportedRateKbits n 0 = if 0 < n then FVal.posInf else FVal.nan := by
  rcases Nat.eq_zero_or_pos n with rfl | hn
  · norm_num [reportedRateKbits, fdiv]
  · have h1 : (0 : ℚ) < (n : ℚ) / 1000 * 8 := by
      have hq : (0 : ℚ) < (n : ℚ) := by exact_mod_cast hn
      positivity
    rw [if_pos hn]
    simp [reportedRateKbits, fdiv, h1]

/-- C7: the empty bandwidth string yields no limiter and no error and the
client proceeds with the unlimited default (rate.Inf, burst 0); the string
not-a-number yields a parse error, which is fatal: client setup produces
no limiter and the run does not start. -/
theorem C7_empty_and_malformed :
    limiterFromString [] = .ok none ∧
    clientLimiterSetup [] = some ⟨.inf, 0⟩ ∧
    limiterFromString ['n', 'o', 't', '-', 'a', '-', 'n', 'u', 'm', 'b', 'e', 'r'] =
      .error parseFailMsg ∧
    clientLimiterSetup ['n', 'o', 't', '-', 'a', '-', 'n', 'u', 'm', 'b', 'e', 'r'] =
      none :=
  ⟨by decide, by decide, by decide, by decide⟩

/-- C8 (amended): in the duration-based receiver, end-of-stream and a
deadline timeout break silently and the statistics line is printed, and
any other read error is logged, breaks the loop, and statistics are still
printed; in the rate-limited receiver, end-of-stream prints statistics,
but a timeout or any other read error is fatal: it is logged and the
process exits before the statistics line. -/
theorem C8_receiver_errors (pre : List ReadRes) (hpre : ∀ r ∈ pre, r.err = none)
    (k c : ℕ) (rest : List ReadRes) :
    clientReadLoop c (pre ++ ⟨k, some .eof⟩ :: rest) =
      some ⟨c + (pre.map ReadRes.bytes).sum + k, true, false, false⟩ ∧
    clientReadLoop c (pre ++ ⟨k, some .timeout⟩ :: rest) =
      some ⟨c + (pre.map ReadRes.bytes).sum + k, true, false, false⟩ ∧
    clientReadLoop c (pre ++ ⟨k, some .other⟩ :: rest) =
      some ⟨c + (pre.map ReadRes.bytes).sum + k, true, true, false⟩ ∧
    clientReadLoopLimited c (pre ++ ⟨k, some .eof⟩ :: rest) =
      some ⟨c + (pre.map ReadRes.bytes).sum + k, true, false, false⟩ ∧
    clientReadLoopLimited c (pre ++ ⟨k, some .timeout⟩ :: rest) =
      some ⟨c + (pre.map ReadRes.bytes).sum + k, false, true, true⟩ ∧
    clientReadLoopLimited c (pre ++ ⟨k, some .other⟩ :: rest) =
      some ⟨c + (pre.map ReadRes.bytes).sum + k, false, true, true⟩ := by
  simp only [clientReadLoop_append_ok pre hpre,
    clientReadLoopLimited_append_ok pre hpre]
  refine ⟨by simp [clientReadLoop], by simp [clientReadLoop],
    by simp [clientReadLoop], by simp [clientReadLoopLimited],
    by simp [clientReadLoopLimited], by simp [clientReadLoopLimited]⟩

/-- C8 counterexample: in the rate-limited receiver a non-EOF read error
exits the process without printing the statistics line, so the claim that
partial statistics are still printed fails at this input. -/
theorem C8_counterexample :
    (clientReadLoopLimited 0 [⟨5, some .other⟩]).map RecvExit.statsPrinted =
      some false ∧
    (clientReadLoopLimited 0 [⟨5, some .other⟩]).map RecvExit.statsPrinted ≠
      some true ∧
    (clientReadLoopLimited 0 [⟨5, some .other⟩]).map RecvExit.processExited =
      some true := by
  decide

/-- Witness for C8 (amended): one full read then EOF in the duration-based
receiver, and the same prefix then a non-EOF error in the rate-limited
receiver. -/
theorem C8_receiver_errors_witness :
    (∀ r ∈ [(⟨8192, none⟩ : ReadRes)], r.err = none) ∧
    clientReadLoop 0 ([(⟨8192, none⟩ : ReadRes)] ++ [⟨3, some .eof⟩]) =
      some ⟨8195, true, false, false⟩ ∧
    clientReadLoopLimited 0 ([(⟨8192, none⟩ : ReadRes)] ++ [⟨3, some .other⟩]) =
      some ⟨8195, false, true, true⟩ := by
  have hpre : ∀ r ∈ [(⟨8192, none⟩ : ReadRes)], r.err = none := by
    intro r hr
    simp only [List.mem_singleton] at hr
    subst hr
    rfl
  have h := C8_receiver_errors [(⟨8192, none⟩ : ReadRes)] hpre 3 0 []
  refine ⟨hpre, ?_, ?_⟩
  · simpa using h.1
  · simpa using h.2.2.2.2.2

/-- C9: each invocation performs exactly one role: sender when the serve
flag is set (the accept loop never returns to main, so the trailing
clientMain call is unreachable), receiver otherwise — never both. -/
theorem C9_single_role (serveFlag setupOk : Bool) (fuel : ℕ)
    (evs : List AcceptEvent) :
    mainRoles serveFlag setupOk fuel evs =
      (if serveFlag then .senderOnly else .receiverOnly) ∧
    mainRoles serveFlag setupOk fuel evs ≠ .both := by
  refine ⟨mainRoles_eq serveFlag setupOk fuel evs, ?_⟩
  rw [mainRoles_eq serveFlag setupOk fuel evs]
  cases serveFlag <;> simp

/-- C10: non-empty trailing characters after the single-letter suffix are
ignored: parsing value-then-S-then-t succeeds and yields the same limiter
(same rate and burst) as parsing value-then-S alone. -/
theorem C10_trailing_chars (d : DecLit) (h : d.WF) (S : Suffix)
    (t : List Char) ( _ht : t ≠ []) :
    limiterFromString (d.render ++ S.char :: t) =
      limiterFromString (d.render ++ [S.char]) ∧
    limiterFromString (d.render ++ S.char :: t) =
      .ok (some ⟨.finite (1.25 * S.mult * d.value / 8), readChunkSize⟩) := by
  have h1 := limiterFromString_suffixed d S t h
  have h2 := limiterFromString_suffixed d S [] h
  exact ⟨h1.trans h2.symm, h1⟩

/-- Witness for C10 at the concrete string 1Kabc. -/
theorem C10_trailing_chars_witness :
    DecLit.WF ⟨['1'], []⟩ ∧ (['a', 'b', 'c'] : List Char) ≠ [] ∧
    limiterFromString
        (DecLit.render ⟨['1'], []⟩ ++ Suffix.char .K :: ['a', 'b', 'c']) =
      limiterFromString (DecLit.render ⟨['1'], []⟩ ++ [Suffix.char .K]) ∧
    limiterFromString
        (DecLit.render ⟨['1'], []⟩ ++ Suffix.char .K :: ['a', 'b', 'c']) =
      .ok (some ⟨.finite (1.25 * Suffix.mult .K * DecLit.value ⟨['1'], []⟩ / 8),
        readChunkSize⟩) := by
  have hwf : DecLit.WF ⟨['1'], []⟩ := by
    unfold DecLit.WF
    refine ⟨by decide, by decide, by decide⟩
  have h := C10_trailing_chars ⟨['1'], []⟩ hwf .K ['a', 'b', 'c'] (by decide)
  exact ⟨hwf, by decide, h.1, h.2⟩

end QPerf
